import Mathlib

/-!
Verification of the backend request handler in `src/backend/main.py`.

The program is a FastAPI app with one endpoint, `POST /generate`
(`generate_response`).  On success it appends the `(query, response)` pair to a
shared conversation history and returns a streaming response produced by the
inner generator `stream_response`, which greedily accumulates the
whitespace-delimited words of the model's reply into a buffer (each word
followed by one space), flushes the stripped buffer followed by a blank-line
delimiter whenever the buffer's length exceeds 20 characters, and flushes a
final stripped partial buffer if it is non-empty.  A provider-level
`genai.GenerationError` is mapped to HTTP 500 with detail "AI generation
error."; any other exception to HTTP 500 with detail "Internal server error.".

Strings are embedded as Lean `String`s, manipulated through their underlying
`List Char`.  Whitespace is the ASCII whitespace recognised by Python's
`str.split()` / `str.strip()` on ASCII text.
-/

/-- The whitespace characters Python's `str.split()` and `str.strip()` split
and strip on (restricted to ASCII, as used by the program). -/
def isPySpace (c : Char) : Bool :=
  c == ' ' || c == '\t' || c == '\n' || c == '\r' || c == '\x0b' || c == '\x0c'

/-- Worker for `pySplitChars`: `cur` holds the current word, reversed. -/
def splitAux : List Char → List Char → List (List Char)
  | [], cur => if cur = [] then [] else [cur.reverse]
  | c :: rest, cur =>
    if isPySpace c then
      if cur = [] then splitAux rest [] else cur.reverse :: splitAux rest []
    else
      splitAux rest (c :: cur)

/-- Python's `s.split()` (no argument): the whitespace-delimited words of `s`,
with no empty words. Embeds `result.split()` in `stream_response`. -/
def pySplitChars (s : List Char) : List (List Char) :=
  splitAux s []

/-- Python's `s.strip()`: drop leading and trailing whitespace.  Embeds
`buffer.strip()` in `stream_response`. -/
def pyStripChars (s : List Char) : List Char :=
  ((s.dropWhile isPySpace).reverse.dropWhile isPySpace).reverse

/-- `s.strip()` lifted to `String`. -/
def pyStrip (s : String) : String :=
  String.mk (pyStripChars s.data)

/-- The blank-line delimiter `"\n\n"` appended to every yielded chunk. -/
def DELIM : List Char := ['\n', '\n']

/-- The loop of `stream_response` in `generate_response`
(`src/backend/main.py`): for each word, `buffer += word + " "`; when
`len(buffer) > 20`, yield `buffer.strip()` and reset the buffer; after the
loop, if the buffer is non-empty, yield `buffer.strip()`.  Returns the
stripped chunk contents, before the `"\n\n"` delimiter is appended. -/
def chunkLoop : List (List Char) → List Char → List (List Char)
  | [], buffer => if buffer = [] then [] else [pyStripChars buffer]
  | w :: ws, buffer =>
    let buffer' := buffer ++ w ++ [' ']
    if 20 < buffer'.length then
      pyStripChars buffer' :: chunkLoop ws []
    else
      chunkLoop ws buffer'

/-- The stripped chunk contents of the stream produced for response text
`result`. -/
def chunks (result : String) : List (List Char) :=
  chunkLoop (pySplitChars result.data) []

/-- The generator `stream_response` of `src/backend/main.py`: the finite
sequence of strings it yields for response text `result`, each of the form
`f"{buffer.strip()}\n\n"`.  (The `asyncio.sleep(0.05)` pacing between flushes
does not affect the yielded values and is not modelled.) -/
def stream_response (result : String) : List String :=
  (chunks result).map (fun c => String.mk (c ++ DELIM))

/-- Outcome of the external model call `model.generate_content(full_prompt)`:
it returns response text, raises `genai.GenerationError`, or raises some other
exception. -/
inductive ModelOutcome where
  | success (text : String)
  | generationError
  | otherError

/-- The HTTP-level result of one `POST /generate` request: the status code,
the JSON error detail (for `HTTPException`s), and the streamed body chunks. -/
structure HandlerResponse where
  status : Nat
  detail : Option String
  body : List String

/-- The handler `generate_response` of `src/backend/main.py` as a function of
the current history, the query, and the outcome of the model call.  On success
it appends `(query, result)` to the shared memory
(`memory.save_context({"input": ...}, {"output": ...})`) and returns the
stream; on `genai.GenerationError` it raises HTTP 500 with detail
"AI generation error."; on any other exception HTTP 500 with detail
"Internal server error." — in the failure branches `save_context` is never
reached and no stream is constructed.  Returns the response together with the
updated history. -/
def generate_response (history : List (String × String)) (query : String)
    (outcome : ModelOutcome) : HandlerResponse × List (String × String) :=
  match outcome with
  | .success result =>
      (⟨200, none, stream_response result⟩, history ++ [(query, result)])
  | .generationError =>
      (⟨500, some "AI generation error.", []⟩, history)
  | .otherError =>
      (⟨500, some "Internal server error.", []⟩, history)

/-- Words joined by single spaces (no trailing space). -/
def joinSp : List (List Char) → List Char
  | [] => []
  | [w] => w
  | w :: x :: ws => w ++ ' ' :: joinSp (x :: ws)

/-- Words each followed by one space: the buffer of `chunkLoop` after
accumulating exactly these words. -/
def flat : List (List Char) → List Char
  | [] => []
  | w :: ws => w ++ ' ' :: flat ws

/-- Length of the accumulation buffer holding these words: the sum of the
word lengths plus one space per word. -/
def accumLen (acc : List (List Char)) : Nat :=
  (acc.map List.length).sum + acc.length

/-- The chunk sequence as the specification words it: greedily accumulate
whitespace-delimited words (each followed by a space) until the accumulated
chunk length exceeds the fixed threshold of 20 characters, then flush the
trimmed accumulation; a final partial chunk is flushed iff non-empty. -/
def greedyWordsSpec : List (List Char) → List (List Char) → List (List Char)
  | [], acc => if acc = [] then [] else [joinSp acc]
  | w :: ws, acc =>
    let acc' := acc ++ [w]
    if 20 < accumLen acc' then
      joinSp acc' :: greedyWordsSpec ws []
    else
      greedyWordsSpec ws acc'

/-- The specification-side chunk sequence for response text `r`. -/
def greedyChunksSpec (r : String) : List String :=
  (greedyWordsSpec (pySplitChars r.data) []).map String.mk

/-- Remove the trailing two-character `"\n\n"` delimiter of a yielded chunk. -/
def stripDelim (s : String) : String :=
  String.mk (s.data.dropLast.dropLast)

/-- The client-side reconstruction named by the specification: trim each
emitted chunk's trailing delimiter, then rejoin the chunks with single
spaces. -/
def reconstruct (r : String) : String :=
  String.mk (joinSp ((stream_response r).map (fun s => (stripDelim s).data)))

/-- The whitespace-normalisation of `r`: its words rejoined with single
spaces. -/
def wordsJoined (r : String) : String :=
  String.mk (joinSp (pySplitChars r.data))

/-- A word as produced by `pySplitChars`: non-empty and whitespace-free. -/
def goodWord (w : List Char) : Prop :=
  w ≠ [] ∧ ∀ c ∈ w, isPySpace c = false

/-- All members are `goodWord`s. -/
def goodWords (l : List (List Char)) : Prop :=
  ∀ w ∈ l, goodWord w

/-- Accumulating one more word adds its length plus one space. -/
theorem accumLen_cons (w : List Char) (l : List (List Char)) :
    accumLen (w :: l) = w.length + 1 + accumLen l := by
  simp [accumLen]
  omega

/-- `accumLen` is additive over append. -/
theorem accumLen_append (a b : List (List Char)) :
    accumLen (a ++ b) = accumLen a + accumLen b := by
  simp [accumLen]
  omega

/-- `flat` is additive over append. -/
theorem flat_append (a b : List (List Char)) :
    flat (a ++ b) = flat a ++ flat b := by
  induction a with
  | nil => simp [flat]
  | cons w ws ih => simp [flat, ih]

/-- On a non-empty word list, `flat` is `joinSp` plus a trailing space. -/
theorem flat_eq_joinSp (acc : List (List Char)) (h : acc ≠ []) :
    flat acc = joinSp acc ++ [' '] := by
  induction acc with
  | nil => exact absurd rfl h
  | cons w ws ih =>
    cases ws with
    | nil => simp [flat, joinSp]
    | cons x xs =>
      have h1 : flat (w :: x :: xs) = w ++ ' ' :: flat (x :: xs) := rfl
      have h2 : joinSp (w :: x :: xs) = w ++ ' ' :: joinSp (x :: xs) := rfl
      rw [h1, ih (by simp), h2]
      simp

/-- The buffer holding the words of `acc` has length `accumLen acc`. -/
theorem length_flat (acc : List (List Char)) :
    (flat acc).length = accumLen acc := by
  induction acc with
  | nil => simp [flat, accumLen]
  | cons w ws ih =>
    simp [flat, accumLen] at ih ⊢
    omega

/-- `flat` of a non-empty word list is non-empty. -/
theorem flat_ne_nil (acc : List (List Char)) (h : acc ≠ []) : flat acc ≠ [] := by
  cases acc with
  | nil => exact absurd rfl h
  | cons w ws => simp [flat]

/-- Joining one word more than a non-empty list. -/
theorem joinSp_concat (acc : List (List Char)) (w : List Char) (h : acc ≠ []) :
    joinSp (acc ++ [w]) = joinSp acc ++ ' ' :: w := by
  induction acc with
  | nil => exact absurd rfl h
  | cons u us ih =>
    cases us with
    | nil => simp [joinSp]
    | cons x xs =>
      have h3 : joinSp ((u :: x :: xs) ++ [w]) = u ++ ' ' :: joinSp ((x :: xs) ++ [w]) := rfl
      have h2 : joinSp (u :: x :: xs) = u ++ ' ' :: joinSp (x :: xs) := rfl
      rw [h3, ih (by simp), h2]
      simp

/-- `joinSp` distributes over append of non-empty lists, with a separating
space. -/
theorem joinSp_append (a b : List (List Char)) (ha : a ≠ []) (hb : b ≠ []) :
    joinSp (a ++ b) = joinSp a ++ ' ' :: joinSp b := by
  induction a with
  | nil => exact absurd rfl ha
  | cons w ws ih =>
    cases ws with
    | nil =>
      cases b with
      | nil => exact absurd rfl hb
      | cons x xs => simp [joinSp]
    | cons x xs =>
      have h3 : joinSp ((w :: x :: xs) ++ b) = w ++ ' ' :: joinSp ((x :: xs) ++ b) := rfl
      have h2 : joinSp (w :: x :: xs) = w ++ ' ' :: joinSp (x :: xs) := rfl
      rw [h3, ih (by simp), h2]
      simp

/-- The joined words are one character shorter than the buffer holding them. -/
theorem length_joinSp (acc : List (List Char)) (h : acc ≠ []) :
    (joinSp acc).length + 1 = accumLen acc := by
  have h1 := length_flat acc
  rw [flat_eq_joinSp acc h] at h1
  simpa using h1

/-- Every word produced by `splitAux` is non-empty and whitespace-free,
provided the pending word is whitespace-free. -/
theorem splitAux_good : ∀ (s cur : List Char), (∀ c ∈ cur, isPySpace c = false) →
    goodWords (splitAux s cur) := by
  intro s
  induction s with
  | nil =>
    intro cur hcur w hw
    simp only [splitAux] at hw
    by_cases h : cur = []
    · simp [h] at hw
    · simp [h] at hw
      subst hw
      exact ⟨by simpa using h, fun c hc => hcur c (List.mem_reverse.mp hc)⟩
  | cons c rest ih =>
    intro cur hcur w hw
    simp only [splitAux] at hw
    by_cases hsp : isPySpace c
    · simp only [hsp, if_true] at hw
      by_cases h : cur = []
      · simp [h] at hw
        exact ih [] (by simp) w hw
      · simp only [h, if_false] at hw
        rcases List.mem_cons.mp hw with rfl | hw
        · exact ⟨by simpa using h, fun d hd => hcur d (List.mem_reverse.mp hd)⟩
        · exact ih [] (by simp) w hw
    · simp only [hsp, if_false] at hw
      refine ih (c :: cur) ?_ w hw
      intro d hd
      rcases List.mem_cons.mp hd with rfl | hd
      · simpa using hsp
      · exact hcur d hd

/-- Every word of `pySplitChars s` is non-empty and whitespace-free. -/
theorem pySplit_good (s : List Char) : goodWords (pySplitChars s) :=
  splitAux_good s [] (by simp)

/-- The joined words of a good non-empty list start with a non-space
character. -/
theorem joinSp_cons_head (ws : List (List Char)) (hg : goodWords ws) (hne : ws ≠ []) :
    ∃ c t, joinSp ws = c :: t ∧ isPySpace c = false := by
  cases ws with
  | nil => exact absurd rfl hne
  | cons w rest =>
    obtain ⟨hwne, hwc⟩ := hg w (by simp)
    cases w with
    | nil => exact absurd rfl hwne
    | cons c t =>
      cases rest with
      | nil => exact ⟨c, t, by simp [joinSp], hwc c (by simp)⟩
      | cons x xs => exact ⟨c, t ++ ' ' :: joinSp (x :: xs), by simp [joinSp], hwc c (by simp)⟩

/-- The joined words of a good non-empty list end with a non-space
character. -/
theorem joinSp_rev_head (ws : List (List Char)) (hg : goodWords ws) (hne : ws ≠ []) :
    ∃ c t, (joinSp ws).reverse = c :: t ∧ isPySpace c = false := by
  induction ws with
  | nil => exact absurd rfl hne
  | cons w rest ih =>
    obtain ⟨hwne, hwc⟩ := hg w (by simp)
    cases rest with
    | nil =>
      cases hrev : w.reverse with
      | nil => exact absurd (by simpa using hrev) hwne
      | cons c t =>
        refine ⟨c, t, by simp [joinSp, hrev], ?_⟩
        have : c ∈ w.reverse := by simp [hrev]
        exact hwc c (List.mem_reverse.mp this)
    | cons x xs =>
      obtain ⟨c, t, hrev, hc⟩ := ih (fun u hu => hg u (by simp [hu])) (by simp)
      refine ⟨c, t ++ ' ' :: w.reverse, ?_, hc⟩
      simp only [joinSp, List.reverse_append, List.reverse_cons]
      rw [hrev]
      simp

/-- `isPySpace ' '` holds. -/
theorem isPySpace_space : isPySpace ' ' = true := by decide

/-- Stripping the accumulation buffer of a good non-empty word list removes
exactly the trailing space: `strip(w1 + " " + ... + wk + " ") = w1 + " " + ... + wk`. -/
theorem strip_flat (ws : List (List Char)) (hg : goodWords ws) (hne : ws ≠ []) :
    pyStripChars (flat ws) = joinSp ws := by
  obtain ⟨c, t, hj, hc⟩ := joinSp_cons_head ws hg hne
  obtain ⟨c', t', hr, hc'⟩ := joinSp_rev_head ws hg hne
  rw [flat_eq_joinSp ws hne]
  show (((joinSp ws ++ [' ']).dropWhile isPySpace).reverse.dropWhile isPySpace).reverse
      = joinSp ws
  have h1 : (joinSp ws ++ [' ']).dropWhile isPySpace = joinSp ws ++ [' '] := by
    rw [hj]
    show ((c :: t) ++ [' ']).dropWhile isPySpace = (c :: t) ++ [' ']
    rw [List.cons_append, List.dropWhile_cons]
    simp [hc]
  have h2 : (joinSp ws).reverse.dropWhile isPySpace = (joinSp ws).reverse := by
    rw [hr, List.dropWhile_cons]
    simp [hc']
  rw [h1, List.reverse_append]
  show ((' ' :: (joinSp ws).reverse).dropWhile isPySpace).reverse = joinSp ws
  rw [List.dropWhile_cons]
  simp only [isPySpace_space, if_true, h2, List.reverse_reverse]

/-- The central bridge: started with the buffer holding the words of `acc`,
the source loop `chunkLoop` produces exactly the specification's greedy chunk
sequence `greedyWordsSpec`, word by word. -/
theorem chunkLoop_eq_greedy : ∀ (ws acc : List (List Char)), goodWords ws →
    goodWords acc → chunkLoop ws (flat acc) = greedyWordsSpec ws acc := by
  intro ws
  induction ws with
  | nil =>
    intro acc _ hacc
    simp only [chunkLoop, greedyWordsSpec]
    by_cases h : acc = []
    · subst h
      simp [flat]
    · rw [if_neg (flat_ne_nil acc h), if_neg h, strip_flat acc hacc h]
  | cons w ws' ih =>
    intro acc hws hacc
    have hgw : goodWord w := hws w (by simp)
    have hws' : goodWords ws' := fun u hu => hws u (by simp [hu])
    have hacc' : goodWords (acc ++ [w]) := by
      intro u hu
      rcases List.mem_append.mp hu with hu | hu
      · exact hacc u hu
      · rcases List.mem_singleton.mp hu with rfl
        exact hgw
    have hflat : flat acc ++ w ++ [' '] = flat (acc ++ [w]) := by
      rw [flat_append]
      simp [flat]
    simp only [chunkLoop, greedyWordsSpec]
    rw [hflat, length_flat]
    by_cases hth : 20 < accumLen (acc ++ [w])
    · rw [if_pos hth, if_pos hth, strip_flat (acc ++ [w]) hacc' (by simp)]
      have h0 : chunkLoop ws' (flat []) = greedyWordsSpec ws' [] :=
        ih [] hws' (by intro u hu; cases hu)
      rw [show flat ([] : List (List Char)) = [] from rfl] at h0
      rw [h0]
    · rw [if_neg hth, if_neg hth]
      exact ih (acc ++ [w]) hws' hacc'

/-- The source chunk contents are exactly the specification's greedy chunk
sequence over the words of the response text. -/
theorem chunks_eq_greedy (r : String) :
    chunks r = greedyWordsSpec (pySplitChars r.data) [] := by
  have h := chunkLoop_eq_greedy (pySplitChars r.data) [] (pySplit_good r.data)
    (by intro u hu; cases hu)
  rw [show flat ([] : List (List Char)) = [] from rfl] at h
  exact h

/-- The words of `s` together with one space each fit in `s.length + 1`
characters: splitting never lengthens the text by more than the one trailing
space. -/
theorem accumLen_splitAux_le : ∀ (s cur : List Char),
    accumLen (splitAux s cur) ≤ s.length + cur.length + 1 := by
  intro s
  induction s with
  | nil =>
    intro cur
    by_cases h : cur = []
    · simp [splitAux, h, accumLen]
    · simp [splitAux, h, accumLen]
  | cons c rest ih =>
    intro cur
    simp only [splitAux]
    by_cases hsp : isPySpace c
    · by_cases h : cur = []
      · simp only [hsp, if_true, h, if_true]
        have := ih []
        simp only [List.length_nil] at this
        simp only [List.length_cons]
        omega
      · simp only [hsp, if_true, h, if_false, accumLen_cons]
        have := ih []
        simp only [List.length_nil] at this
        simp only [List.length_cons, List.length_reverse]
        omega
    · rw [if_neg hsp]
      have := ih (c :: cur)
      simp only [List.length_cons] at this ⊢
      omega

/-- Bound for `pySplitChars`: the accumulation of all words of `s` has length
at most `s.length + 1`. -/
theorem accumLen_pySplit_le (s : List Char) :
    accumLen (pySplitChars s) ≤ s.length + 1 := by
  have := accumLen_splitAux_le s []
  simpa [pySplitChars] using this

/-- If the whole accumulation never exceeds the threshold, the greedy loop
flushes only the single final chunk. -/
theorem greedy_small : ∀ (ws acc : List (List Char)), acc ≠ [] →
    accumLen acc + accumLen ws ≤ 20 →
    greedyWordsSpec ws acc = [joinSp (acc ++ ws)] := by
  intro ws
  induction ws with
  | nil =>
    intro acc hne _
    simp [greedyWordsSpec, hne]
  | cons w ws' ih =>
    intro acc hne hb
    simp only [greedyWordsSpec]
    have h1 : accumLen (acc ++ [w]) + accumLen ws' ≤ 20 := by
      rw [accumLen_append]
      rw [accumLen_cons] at hb
      simp [accumLen] at hb ⊢
      omega
    rw [if_neg (by omega), ih (acc ++ [w]) (by simp) h1]
    simp

/-- Same, started from an empty accumulation with at least one word. -/
theorem greedy_small_nil (ws : List (List Char)) (hne : ws ≠ [])
    (hb : accumLen ws ≤ 20) : greedyWordsSpec ws [] = [joinSp ws] := by
  cases ws with
  | nil => exact absurd rfl hne
  | cons w ws' =>
    simp only [greedyWordsSpec, List.nil_append]
    rw [accumLen_cons] at hb
    have hw : accumLen [w] = w.length + 1 := by simp [accumLen]
    rw [if_neg (by rw [hw]; omega)]
    have := greedy_small ws' [w] (by simp) (by rw [hw]; omega)
    rw [this]
    simp

/-- The greedy loop emits at least one chunk whenever it has pending words or
a pending accumulation. -/
theorem greedy_ne_nil : ∀ (ws acc : List (List Char)), acc ≠ [] ∨ ws ≠ [] →
    greedyWordsSpec ws acc ≠ [] := by
  intro ws
  induction ws with
  | nil =>
    intro acc h
    rcases h with h | h
    · simp [greedyWordsSpec, h]
    · exact absurd rfl h
  | cons w ws' ih =>
    intro acc _
    simp only [greedyWordsSpec]
    by_cases hth : 20 < accumLen (acc ++ [w])
    · simp [hth]
    · rw [if_neg hth]
      exact ih (acc ++ [w]) (Or.inl (by simp))

/-- Rejoining the greedy chunks with single spaces recovers the accumulation
plus pending words, joined with single spaces: chunking loses no word and no
word order. -/
theorem joinSp_greedy : ∀ (ws acc : List (List Char)),
    joinSp (greedyWordsSpec ws acc) = joinSp (acc ++ ws) := by
  intro ws
  induction ws with
  | nil =>
    intro acc
    by_cases h : acc = [] <;> simp [greedyWordsSpec, h, joinSp]
  | cons w ws' ih =>
    intro acc
    simp only [greedyWordsSpec]
    have hsplit : (acc ++ [w]) ++ ws' = acc ++ w :: ws' := by simp
    by_cases hth : 20 < accumLen (acc ++ [w])
    · rw [if_pos hth]
      by_cases hws : ws' = []
      · subst hws
        have : greedyWordsSpec [] ([] : List (List Char)) = [] := rfl
        rw [this]
        simp only [joinSp]
      · have hne := greedy_ne_nil ws' [] (Or.inr hws)
        cases hgr : greedyWordsSpec ws' [] with
        | nil => exact absurd hgr hne
        | cons a l =>
          have hj : joinSp (joinSp (acc ++ [w]) :: a :: l)
              = joinSp (acc ++ [w]) ++ ' ' :: joinSp (a :: l) := rfl
          rw [hj, ← hgr, ih []]
          simp only [List.nil_append]
          rw [← joinSp_append (acc ++ [w]) ws' (by simp) hws]
          simp
    · rw [if_neg hth, ih (acc ++ [w])]
      rw [hsplit]

/-- Every chunk flushed from inside the greedy loop — every chunk except
possibly the last — has length at least the threshold of 20. -/
theorem greedy_dropLast_ge : ∀ (ws acc : List (List Char)),
    ∀ c ∈ (greedyWordsSpec ws acc).dropLast, 20 ≤ c.length := by
  intro ws
  induction ws with
  | nil =>
    intro acc c hc
    by_cases h : acc = [] <;> simp [greedyWordsSpec, h] at hc
  | cons w ws' ih =>
    intro acc c hc
    simp only [greedyWordsSpec] at hc
    by_cases hth : 20 < accumLen (acc ++ [w])
    · rw [if_pos hth] at hc
      cases hgr : greedyWordsSpec ws' [] with
      | nil =>
        rw [hgr] at hc
        simp at hc
      | cons a l =>
        rw [hgr, List.dropLast_cons₂] at hc
        rcases List.mem_cons.mp hc with rfl | hc
        · have hlen := length_joinSp (acc ++ [w]) (by simp)
          omega
        · refine ih [] c ?_
          rw [hgr]
          exact hc
    · rw [if_neg hth] at hc
      exact ih (acc ++ [w]) c hc

/-- Every chunk the greedy loop emits is the single-space join of a non-empty
group of words drawn from the pending accumulation and the remaining words. -/
theorem greedy_chunk_decomp : ∀ (ws acc : List (List Char)),
    ∀ c ∈ greedyWordsSpec ws acc,
    ∃ g, g ≠ [] ∧ (∀ w ∈ g, w ∈ acc ++ ws) ∧ c = joinSp g := by
  intro ws
  induction ws with
  | nil =>
    intro acc c hc
    by_cases h : acc = []
    · simp [greedyWordsSpec, h] at hc
    · simp only [greedyWordsSpec, if_neg h, List.mem_singleton] at hc
      exact ⟨acc, h, by simp, hc⟩
  | cons w ws' ih =>
    intro acc c hc
    simp only [greedyWordsSpec] at hc
    by_cases hth : 20 < accumLen (acc ++ [w])
    · rw [if_pos hth] at hc
      rcases List.mem_cons.mp hc with rfl | hc
      · refine ⟨acc ++ [w], by simp, ?_, rfl⟩
        intro u hu
        simp at hu ⊢
        tauto
      · obtain ⟨g, hg1, hg2, hg3⟩ := ih [] c hc
        refine ⟨g, hg1, ?_, hg3⟩
        intro u hu
        have := hg2 u hu
        simp at this ⊢
        tauto
    · rw [if_neg hth] at hc
      obtain ⟨g, hg1, hg2, hg3⟩ := ih (acc ++ [w]) c hc
      refine ⟨g, hg1, ?_, hg3⟩
      intro u hu
      have := hg2 u hu
      simp at this ⊢
      tauto

/-- C1: for every query `q`, when the model call succeeds with response text
`r`, the `/generate` handler appends exactly one new entry `(q, r)` to the
shared conversation history, and the history length increases by exactly 1. -/
theorem generate_appends_one_entry (h : List (String × String)) (q r : String) :
    (generate_response h q (ModelOutcome.success r)).2 = h ++ [(q, r)] ∧
    (generate_response h q (ModelOutcome.success r)).2.length = h.length + 1 := by
  refine ⟨rfl, ?_⟩
  simp [generate_response]

/-- C2: for every response text `r`, the stream produced by the handler is
exactly the finite chunk sequence obtained by greedily accumulating the
whitespace-delimited words of `r` until the accumulated chunk length exceeds
the 20-character threshold, then flushing the trimmed accumulation, with a
final partial chunk flushed iff non-empty — each chunk emitted with its
trailing blank-line delimiter. -/
theorem stream_matches_greedy_spec (r : String) :
    stream_response r = (greedyChunksSpec r).map (fun c => c ++ "\n\n") := by
  rw [stream_response, chunks_eq_greedy, greedyChunksSpec, List.map_map]
  congr 1

/-- C3 fails as stated: for the response text `"a  b"` (two words separated
by a double space) the reconstruction is `"a b"`, not the original text. -/
theorem reconstruct_not_lossless : reconstruct "a  b" ≠ "a  b" := by decide

/-- C3 (amended): trimming each emitted chunk's trailing delimiter and
rejoining the chunks with single spaces reconstructs the whitespace
normalisation of the response text — its words rejoined with single spaces —
which equals the original text exactly when the original has single-space
separators and no surrounding whitespace. -/
theorem reconstruct_eq_wordsJoined (r : String) :
    reconstruct r = wordsJoined r := by
  rw [reconstruct, wordsJoined, stream_response, List.map_map]
  have hmap : ((chunks r).map
      ((fun s => (stripDelim s).data) ∘ fun c => String.mk (c ++ DELIM)))
      = (chunks r).map id := by
    apply List.map_congr_left
    intro c _
    show (c ++ DELIM).dropLast.dropLast = c
    rw [show c ++ DELIM = (c ++ ['\x0a']) ++ ['\x0a'] by simp [DELIM]]
    rw [List.dropLast_concat, List.dropLast_concat]
  rw [hmap, List.map_id, chunks_eq_greedy, joinSp_greedy]
  simp

/-- C4: a provider-level failure (`genai.GenerationError`) yields HTTP 500
with JSON detail "AI generation error.", and any other failure during request
handling yields HTTP 500 with JSON detail "Internal server error.". -/
theorem error_responses_500 (h : List (String × String)) (q : String) :
    (generate_response h q ModelOutcome.generationError).1.status = 500 ∧
    (generate_response h q ModelOutcome.generationError).1.detail
      = some "AI generation error." ∧
    (generate_response h q ModelOutcome.otherError).1.status = 500 ∧
    (generate_response h q ModelOutcome.otherError).1.detail
      = some "Internal server error." :=
  ⟨rfl, rfl, rfl, rfl⟩

/-- C5: on either failure outcome of the model call, no stream chunk is
emitted to the caller and the conversation history is left unchanged. -/
theorem failure_no_stream_no_append (h : List (String × String)) (q : String) :
    (generate_response h q ModelOutcome.generationError).1.body = [] ∧
    (generate_response h q ModelOutcome.generationError).2 = h ∧
    (generate_response h q ModelOutcome.otherError).1.body = [] ∧
    (generate_response h q ModelOutcome.otherError).2 = h :=
  ⟨rfl, rfl, rfl, rfl⟩

/-- C6 fails as stated: the empty response text has length 0, below the
threshold, yet yields zero chunks rather than one; and the 4-character text
`"a  b"` yields the single chunk `"a b"`, which is not the response text
trimmed of surrounding whitespace (`"a  b"`). -/
theorem small_text_single_chunk_fails :
    stream_response "" = [] ∧
    stream_response "a  b" = ["a b\n\n"] ∧ stripDelim "a b\n\n" ≠ pyStrip "a  b" :=
  ⟨by decide, by decide, by decide⟩

/-- C6 (amended): for every response text containing at least one
whitespace-delimited word and of total length below the 20-character
threshold, the stream yields exactly one chunk, equal to the words of the
text rejoined with single spaces (the text trimmed of surrounding whitespace
whenever its interior separators are single spaces). -/
theorem small_text_single_chunk (r : String) (hw : pySplitChars r.data ≠ [])
    (hlen : r.length < 20) :
    chunks r = [(wordsJoined r).data] := by
  rw [chunks_eq_greedy]
  have hb : accumLen (pySplitChars r.data) ≤ 20 := by
    have h1 := accumLen_pySplit_le r.data
    have h2 : r.data.length = r.length := rfl
    omega
  rw [greedy_small_nil _ hw hb]
  rfl

/-- Witness for C6 (amended) at the concrete text "hello world". -/
theorem small_text_single_chunk_witness :
    pySplitChars "hello world".data ≠ [] ∧ ("hello world" : String).length < 20 ∧
    chunks "hello world" = [(wordsJoined "hello world").data] :=
  ⟨by decide, by decide, small_text_single_chunk "hello world" (by decide) (by decide)⟩

/-- C7: a response text with zero whitespace-delimited words (empty or
whitespace-only) yields a stream of zero chunks. -/
theorem zero_words_zero_chunks (r : String) (h : pySplitChars r.data = []) :
    stream_response r = [] := by
  rw [stream_response, chunks, h]
  rfl

/-- Witness for C7 at the concrete whitespace-only text. -/
theorem zero_words_zero_chunks_witness :
    pySplitChars (" \t " : String).data = [] ∧ stream_response " \t " = [] :=
  ⟨by decide, zero_words_zero_chunks " \t " (by decide)⟩

/-- C8: for the response text "Hi there, how can I help you today friend"
(9 words, 41 characters) the stream yields exactly two chunks — the first
flushed once the accumulation exceeds 20 characters, the remainder flushed as
the second — and after the successful request the history has length 1. -/
theorem scenario_two_chunks :
    stream_response "Hi there, how can I help you today friend"
      = ["Hi there, how can I help\n\n", "you today friend\n\n"] ∧
    (generate_response [] "Hello"
      (ModelOutcome.success "Hi there, how can I help you today friend")).2
      = [("Hello", "Hi there, how can I help you today friend")] :=
  ⟨by decide, by decide⟩

/-- C9: every chunk the stream generator yields is non-empty — it starts with
a non-empty, whitespace-free word of the response text, so it is never empty
nor whitespace-only. -/
theorem chunk_nonempty_contains_word (r : String) (c : List Char)
    (hc : c ∈ chunks r) :
    c ≠ [] ∧ ∃ w t, w ∈ pySplitChars r.data ∧ w ≠ [] ∧
      (∀ ch ∈ w, isPySpace ch = false) ∧ c = w ++ t := by
  rw [chunks_eq_greedy] at hc
  obtain ⟨g, hg1, hg2, hg3⟩ := greedy_chunk_decomp _ [] c hc
  cases g with
  | nil => exact absurd rfl hg1
  | cons w rest =>
    have hw : w ∈ pySplitChars r.data := by
      have := hg2 w (by simp)
      simpa using this
    obtain ⟨hwne, hwsp⟩ := pySplit_good r.data w hw
    have hpre : ∃ t, c = w ++ t := by
      cases rest with
      | nil => exact ⟨[], by simp [hg3, joinSp]⟩
      | cons x xs => exact ⟨' ' :: joinSp (x :: xs), by rw [hg3]; rfl⟩
    obtain ⟨t, ht⟩ := hpre
    refine ⟨?_, w, t, hw, hwne, hwsp, ht⟩
    rw [ht]
    cases w with
    | nil => exact absurd rfl hwne
    | cons a as => simp

/-- Witness for C9 at the concrete text "hi" and its unique chunk. -/
theorem chunk_nonempty_contains_word_witness :
    (['h', 'i'] : List Char) ∈ chunks "hi" ∧
    ((['h', 'i'] : List Char) ≠ [] ∧ ∃ w t, w ∈ pySplitChars "hi".data ∧ w ≠ [] ∧
      (∀ ch ∈ w, isPySpace ch = false) ∧ ['h', 'i'] = w ++ t) :=
  ⟨by decide, chunk_nonempty_contains_word "hi" ['h', 'i'] (by decide)⟩

/-- C10: every chunk emitted from inside the accumulation loop — every chunk
except possibly the final one — has (trimmed) length at least 20: the
threshold is a lower bound on non-final chunk sizes. -/
theorem nonfinal_chunk_length_ge_threshold (r : String) (c : List Char)
    (hc : c ∈ (chunks r).dropLast) : 20 ≤ c.length := by
  rw [chunks_eq_greedy] at hc
  exact greedy_dropLast_ge _ [] c hc

/-- Witness for C10 at the two-chunk scenario text: its first chunk is
non-final and 24 characters long. -/
theorem nonfinal_chunk_length_ge_threshold_witness :
    ("Hi there, how can I help".data
      ∈ (chunks "Hi there, how can I help you today friend").dropLast) ∧
    20 ≤ ("Hi there, how can I help".data).length :=
  ⟨by decide, nonfinal_chunk_length_ge_threshold
    "Hi there, how can I help you today friend" "Hi there, how can I help".data (by decide)⟩
